import Mathlib

/-!
Verification of the `enc` Go package: a password-based authenticated
encryption container.  The pipeline is
gob encode, gzip compress, argon2i key derivation, AES-256-GCM seal,
framed as version bytes, salt, nonce, ciphertext with tag, together with a
SHA-512 digest of the produced blob.

The embedding is shallow: byte strings are lists of naturals, the external
cryptographic primitives (gob, gzip, argon2, AES-GCM, SHA-512) are fields of
a `Crypto` structure, and `Encrypt` and `Decrypt` are translated from
`enc.go` over those fields.  A small executable instantiation `toy` is used
to evaluate the definitions on concrete inputs.
-/

namespace Enc

/-- Byte strings, as lists of naturals (each byte is below 256 in the real
program; boundedness is only needed where a theorem states it). -/
abbrev Bytes := List Nat

/-- The constant `saltSize = 64` from enc.go. -/
def saltSize : Nat := 64

/-- The enc format version, `const Version uint64 = 1`. -/
def Version : Nat := 1

/-- The 8-byte little-endian encoding written by
`binary.LittleEndian.PutUint64`. -/
def putUint64LE (n : Nat) : Bytes :=
  [n % 256, n / 256 % 256, n / 256 ^ 2 % 256, n / 256 ^ 3 % 256,
   n / 256 ^ 4 % 256, n / 256 ^ 5 % 256, n / 256 ^ 6 % 256, n / 256 ^ 7 % 256]

/-- The value read by `binary.LittleEndian.Uint64` from the first 8 bytes.
The Go function panics on fewer than 8 bytes; `Decrypt` only calls it after
checking the length, so the value on short inputs is irrelevant. -/
def leUint64 (b : Bytes) : Nat :=
  match b with
  | b0 :: b1 :: b2 :: b3 :: b4 :: b5 :: b6 :: b7 :: _ =>
    b0 + 256 * (b1 + 256 * (b2 + 256 * (b3 + 256 * (b4 + 256 *
      (b5 + 256 * (b6 + 256 * b7))))))
  | _ => 0

/-- `aes.NewCipher` succeeds exactly when the key has 16, 24 or 32 bytes;
otherwise it returns `aes.KeySizeError`. -/
def aesKeyOk (key : Bytes) : Bool :=
  key.length == 16 || key.length == 24 || key.length == 32

/-- The external primitives used by enc.go, abstracted: gob serialization
over a value type `α`, gzip compression, the argon2i derivation
`derive(password, salt)` with its fixed parameters, the AES-GCM AEAD with its
nonce size and tag overhead, and SHA-512. -/
structure Crypto (α : Type) where
  gobEncode : α → Option Bytes
  gobDecode : Bytes → Option α
  gzip : Bytes → Bytes
  gunzip : Bytes → Option Bytes
  derive : Bytes → Bytes → Bytes
  nonceSize : Nat
  tagSize : Nat
  sealAEAD : Bytes → Bytes → Bytes → Bytes
  openAEAD : Bytes → Bytes → Bytes → Option Bytes
  sha512 : Bytes → Bytes

/-- Errors returned by `Decrypt`, from the error values declared in enc.go
plus the error classes propagated from the libraries. -/
inductive EncError
  | noVersion
  | versionInvalid
  | noSalt
  | noNonce
  | keySize
  | auth
  | gzipErr
  | gobErr
deriving DecidableEq, Repr

/-- The cryptographic operations `Decrypt` can perform, in the order the Go
code invokes them: `derive`, `aes.NewCipher`, `cipher.NewGCM`, `gcm.Open`. -/
inductive CryptoOp
  | deriveKey
  | newCipher
  | newGCM
  | aeadOpen
deriving DecidableEq, Repr

/-- Translation of `Decrypt` from enc.go, instrumented with the list of
cryptographic operations performed before returning.  The control flow
follows the source exactly: version length check, version value switch,
salt length check, key derivation and cipher construction, nonce length
check, AEAD open, gzip decompression, gob decode. -/
def DecryptT {α : Type} (C : Crypto α) (data password : Bytes) :
    List CryptoOp × Except EncError α :=
  if data.length < 8 then ([], .error .noVersion)
  else if leUint64 (data.take 8) = 1 then
    if (data.drop 8).length < saltSize then ([], .error .noSalt)
    else if aesKeyOk (C.derive password ((data.drop 8).take saltSize)) then
      if ((data.drop 8).drop saltSize).length < C.nonceSize then
        ([.deriveKey, .newCipher, .newGCM], .error .noNonce)
      else
        match C.openAEAD (C.derive password ((data.drop 8).take saltSize))
            (((data.drop 8).drop saltSize).take C.nonceSize)
            (((data.drop 8).drop saltSize).drop C.nonceSize) with
        | none => ([.deriveKey, .newCipher, .newGCM, .aeadOpen], .error .auth)
        | some plaintext =>
          ([.deriveKey, .newCipher, .newGCM, .aeadOpen],
            match C.gunzip plaintext with
            | none => .error .gzipErr
            | some serialized =>
              match C.gobDecode serialized with
              | none => .error .gobErr
              | some v => .ok v)
    else ([.deriveKey], .error .keySize)
  else ([], .error .versionInvalid)

/-- `Decrypt` as the caller sees it: the result component of `DecryptT`. -/
def Decrypt {α : Type} (C : Crypto α) (data password : Bytes) :
    Except EncError α :=
  (DecryptT C data password).2

/-- `Decrypt` with the output reference modeled explicitly: `d` is the value
the caller passed by reference, and the second component of the result is
its content when `Decrypt` returns.  The gob decode is the only statement of
the source that writes through the reference. -/
def DecryptRef {α : Type} (C : Crypto α) (data password : Bytes) (d : α) :
    Except EncError Unit × α :=
  if data.length < 8 then (.error .noVersion, d)
  else if leUint64 (data.take 8) = 1 then
    if (data.drop 8).length < saltSize then (.error .noSalt, d)
    else if aesKeyOk (C.derive password ((data.drop 8).take saltSize)) then
      if ((data.drop 8).drop saltSize).length < C.nonceSize then (.error .noNonce, d)
      else
        match C.openAEAD (C.derive password ((data.drop 8).take saltSize))
            (((data.drop 8).drop saltSize).take C.nonceSize)
            (((data.drop 8).drop saltSize).drop C.nonceSize) with
        | none => (.error .auth, d)
        | some plaintext =>
          match C.gunzip plaintext with
          | none => (.error .gzipErr, d)
          | some serialized =>
            match C.gobDecode serialized with
            | none => (.error .gobErr, d)
            | some v => (.ok (), v)
    else (.error .keySize, d)
  else (.error .versionInvalid, d)

/-- State of the `io.MultiWriter(&buf, sha)` used by `Encrypt`: the bytes
accumulated in `buf` and the bytes absorbed by the SHA-512 hash. -/
structure MultiW where
  buf : Bytes
  sha : Bytes

/-- A write through the multi-writer appends the bytes to both sinks. -/
def MultiW.write (m : MultiW) (b : Bytes) : MultiW :=
  ⟨m.buf ++ b, m.sha ++ b⟩

/-- Translation of `Encrypt` from enc.go.  The salt and nonce drawn from
`crypto/rand` are passed as arguments; the Go code draws `saltSize` bytes for
the salt and `gcm.NonceSize()` bytes for the nonce.  Returns the blob and
the SHA-512 hash, or `none` when gob encoding or cipher construction
fails. -/
def Encrypt {α : Type} (C : Crypto α) (salt nonce password : Bytes) (e : α) :
    Option (Bytes × Bytes) :=
  match C.gobEncode e with
  | none => none
  | some encoded =>
    let compressed := C.gzip encoded
    let key := C.derive password salt
    if aesKeyOk key then
      let mw : MultiW := ⟨[], []⟩
      let mw := mw.write (putUint64LE Version)
      let mw := mw.write salt
      let mw := mw.write nonce
      let mw := mw.write (C.sealAEAD key nonce compressed)
      some (mw.buf, C.sha512 mw.sha)
    else none

/-- Sum of the bytes of a list, used by the toy primitives. -/
def bsum (b : Bytes) : Nat := b.foldl (· + ·) 0

/-- Toy AEAD seal: the ciphertext body is the plaintext and the 16-byte tag
is a byte-sum checksum of key, nonce and plaintext. -/
def toySeal (key nonce plaintext : Bytes) : Bytes :=
  plaintext ++ List.replicate 15 0 ++ [(bsum key + bsum nonce + bsum plaintext) % 256]

/-- Toy AEAD open: fails when the input is shorter than the tag or when the
recomputed tag does not match. -/
def toyOpen (key nonce ct : Bytes) : Option Bytes :=
  if ct.length < 16 then none
  else
    let body := ct.take (ct.length - 16)
    let tag := ct.drop (ct.length - 16)
    if tag = List.replicate 15 0 ++ [(bsum key + bsum nonce + bsum body) % 256]
    then some body else none

/-- Executable toy instantiation of the primitives, over values of type
`Nat`, used to evaluate the pipeline on concrete inputs.  The serializer
keeps the byte, the compressor prefixes the length, the key derivation and
the AEAD tag are byte-sum based; the AEAD has the GCM sizes: 12-byte nonce,
16-byte tag, 32-byte key. -/
def toy : Crypto Nat where
  gobEncode n := some [n % 256]
  gobDecode b := match b with | [n] => some n | _ => none
  gzip b := b.length % 256 :: b
  gunzip b := match b with
    | [] => none
    | n :: rest => if rest.length % 256 = n then some rest else none
  derive password salt :=
    List.replicate 31 0 ++ [(bsum password + bsum salt) % 256]
  nonceSize := 12
  tagSize := 16
  sealAEAD := toySeal
  openAEAD := toyOpen
  sha512 b := List.replicate 63 0 ++ [bsum b % 256]

/-! Concrete inputs used to evaluate the definitions. -/

/-- A concrete all-zero salt of the correct size. -/
def zeroSalt : Bytes := List.replicate 64 0

/-- A concrete all-zero nonce of the GCM nonce size. -/
def zeroNonce : Bytes := List.replicate 12 0

/-- A concrete password. -/
def pw1 : Bytes := [1]

/-- A second, different concrete password. -/
def pw2 : Bytes := [2]

/-- The blob and hash produced by the toy pipeline on password `pw1` and
value `7` with the all-zero salt and nonce. -/
def toyPair : Bytes × Bytes := (Encrypt toy zeroSalt zeroNonce pw1 7).getD ([], [])

/-- A 72-byte blob: valid version and full salt but no nonce bytes. -/
def c5data : Bytes := putUint64LE 1 ++ List.replicate 64 0

/-- A blob with valid version, salt and nonce whose ciphertext region has
only 3 bytes, fewer than the 16-byte GCM tag. -/
def c8data : Bytes :=
  putUint64LE 1 ++ List.replicate 64 0 ++ List.replicate 12 0 ++ [1, 2, 3]

/-- A salt that differs from `zeroSalt` in the first byte. -/
def altSalt : Bytes := 1 :: List.replicate 63 0

/-- A nonce that differs from `zeroNonce` in the first byte. -/
def altNonce : Bytes := 1 :: List.replicate 11 0

/-- The blob and hash produced with the alternative salt and nonce. -/
def toyPairAlt : Bytes × Bytes := (Encrypt toy altSalt altNonce pw1 7).getD ([], [])

/-- Distinct salts with equal byte sums, so the toy key derivation and tag
coincide on them. -/
def cexSalt1 : Bytes := 1 :: 0 :: List.replicate 62 0

/-- See `cexSalt1`. -/
def cexSalt2 : Bytes := 0 :: 1 :: List.replicate 62 0

/-- Distinct nonces with equal byte sums. -/
def cexNonce1 : Bytes := 1 :: 0 :: List.replicate 10 0

/-- See `cexNonce1`. -/
def cexNonce2 : Bytes := 0 :: 1 :: List.replicate 10 0

/-- Encryption outputs for the equal-sum salt and nonce pairs. -/
def cexPair1 : Bytes × Bytes := (Encrypt toy cexSalt1 cexNonce1 pw1 7).getD ([], [])

/-- See `cexPair1`. -/
def cexPair2 : Bytes × Bytes := (Encrypt toy cexSalt2 cexNonce2 pw1 7).getD ([], [])

/-! Helper lemmas about list slicing and the frame encoding. -/

lemma take_append_len (a b : Bytes) : (a ++ b).take a.length = a := by
  induction a with
  | nil => simp
  | cons x xs ih => simp [ih]

lemma drop_append_len (a b : Bytes) : (a ++ b).drop a.length = b := by
  induction a with
  | nil => simp
  | cons x xs ih => simp [ih]

lemma take_append_of_len (a b : Bytes) (n : Nat) (h : a.length = n) :
    (a ++ b).take n = a := h ▸ take_append_len a b

lemma drop_append_of_len (a b : Bytes) (n : Nat) (h : a.length = n) :
    (a ++ b).drop n = b := h ▸ drop_append_len a b

lemma length_putUint64LE (n : Nat) : (putUint64LE n).length = 8 := rfl

lemma leUint64_putUint64LE_one : leUint64 (putUint64LE 1) = 1 := by decide

/-- Over natural-number bytes, the only 8-byte prefix whose little-endian
value is 1 is the encoding of 1 itself. -/
lemma leUint64_eq_one_iff (b : Bytes) (hb : 8 ≤ b.length) :
    leUint64 b = 1 ↔ b.take 8 = putUint64LE 1 := by
  rcases b with _ | ⟨b0, b⟩; · simp at hb
  rcases b with _ | ⟨b1, b⟩; · simp at hb
  rcases b with _ | ⟨b2, b⟩; · simp at hb
  rcases b with _ | ⟨b3, b⟩; · simp at hb
  rcases b with _ | ⟨b4, b⟩; · simp at hb
  rcases b with _ | ⟨b5, b⟩; · simp at hb
  rcases b with _ | ⟨b6, b⟩; · simp at hb
  rcases b with _ | ⟨b7, b⟩; · simp at hb
  show b0 + 256 * (b1 + 256 * (b2 + 256 * (b3 + 256 * (b4 + 256 *
      (b5 + 256 * (b6 + 256 * b7)))))) = 1 ↔
    [b0, b1, b2, b3, b4, b5, b6, b7] = [1, 0, 0, 0, 0, 0, 0, 0]
  simp only [List.cons.injEq, and_true]
  omega

lemma aesKeyOk_of_len32 (key : Bytes) (h : key.length = 32) :
    aesKeyOk key = true := by
  simp [aesKeyOk, h]

/-- Unfolding lemma for a successful `Encrypt`: the blob is the frame
written through the multi-writer and the hash is the digest of exactly
those bytes. -/
lemma Encrypt_eq_some {α : Type} (C : Crypto α) (salt nonce password : Bytes)
    (v : α) (blob h : Bytes)
    (henc : Encrypt C salt nonce password v = some (blob, h)) :
    ∃ encoded, C.gobEncode v = some encoded ∧
      aesKeyOk (C.derive password salt) = true ∧
      blob = putUint64LE Version ++ salt ++ nonce ++
        C.sealAEAD (C.derive password salt) nonce (C.gzip encoded) ∧
      h = C.sha512 blob := by
  unfold Encrypt at henc
  cases hg : C.gobEncode v with
  | none => rw [hg] at henc; exact absurd henc (by simp)
  | some encoded =>
    rw [hg] at henc
    simp only [MultiW.write] at henc
    by_cases hk : aesKeyOk (C.derive password salt) = true
    · rw [if_pos hk] at henc
      simp only [Option.some.injEq, Prod.mk.injEq] at henc
      obtain ⟨hb, hh⟩ := henc
      refine ⟨encoded, rfl, hk, ?_, ?_⟩
      · rw [← hb]; simp
      · rw [← hh, ← hb]
    · rw [if_neg hk] at henc; exact absurd henc (by simp)

/-- Parsing a well-formed frame: on a blob built as version, salt of 64
bytes, nonce of the AEAD nonce size and a ciphertext region, `DecryptT`
reaches the AEAD open on exactly those components. -/
lemma DecryptT_frame {α : Type} (C : Crypto α) (password salt nonce ct : Bytes)
    (hsalt : salt.length = saltSize) (hnonce : nonce.length = C.nonceSize)
    (hkey : aesKeyOk (C.derive password salt) = true) :
    DecryptT C (putUint64LE Version ++ salt ++ nonce ++ ct) password =
      match C.openAEAD (C.derive password salt) nonce ct with
      | none => ([.deriveKey, .newCipher, .newGCM, .aeadOpen], .error .auth)
      | some plaintext =>
        ([.deriveKey, .newCipher, .newGCM, .aeadOpen],
          match C.gunzip plaintext with
          | none => .error .gzipErr
          | some serialized =>
            match C.gobDecode serialized with
            | none => .error .gobErr
            | some v => .ok v) := by
  have hA : putUint64LE Version ++ salt ++ nonce ++ ct
      = putUint64LE Version ++ (salt ++ (nonce ++ ct)) := by
    simp [List.append_assoc]
  have h8 : (putUint64LE Version).length = 8 := rfl
  have htake8 := take_append_of_len (putUint64LE Version) (salt ++ (nonce ++ ct)) 8 h8
  have hdrop8 := drop_append_of_len (putUint64LE Version) (salt ++ (nonce ++ ct)) 8 h8
  have htakeS := take_append_of_len salt (nonce ++ ct) saltSize hsalt
  have hdropS := drop_append_of_len salt (nonce ++ ct) saltSize hsalt
  have htakeN := take_append_of_len nonce ct C.nonceSize hnonce
  have hdropN := drop_append_of_len nonce ct C.nonceSize hnonce
  have hc1 : ¬ (putUint64LE Version ++ (salt ++ (nonce ++ ct))).length < 8 := by
    simp [putUint64LE]
  have hc2 : ¬ (salt ++ (nonce ++ ct)).length < saltSize := by
    simp [hsalt]
  have hc3 : ¬ (nonce ++ ct).length < C.nonceSize := by
    simp [hnonce]
  have hle : leUint64 (putUint64LE Version) = 1 := by decide
  rw [hA]
  unfold DecryptT
  simp only [hc1, htake8, hdrop8, htakeS, hdropS, htakeN, hdropN, hle, hkey,
    hc2, hc3, if_true, if_false, ite_false, ite_true, eq_self_iff_true,
    not_false_iff]

/-- The ciphertext region of a well-formed frame. -/
lemma frame_drop_ct (salt nonce ct : Bytes) (n : Nat)
    (hsalt : salt.length = saltSize) (hnonce : nonce.length = n) :
    (putUint64LE Version ++ salt ++ nonce ++ ct).drop (8 + saltSize + n) = ct :=
  drop_append_of_len _ ct _ (by simp [putUint64LE, hsalt, hnonce]; omega)

/-- The salt region of a well-formed frame. -/
lemma frame_salt_region (salt nonce ct : Bytes) (hsalt : salt.length = saltSize) :
    ((putUint64LE Version ++ salt ++ nonce ++ ct).drop 8).take saltSize = salt := by
  have h1 : (putUint64LE Version ++ salt ++ nonce ++ ct).drop 8
      = salt ++ (nonce ++ ct) := by
    have h2 : putUint64LE Version ++ salt ++ nonce ++ ct
        = putUint64LE Version ++ (salt ++ (nonce ++ ct)) := by simp
    rw [h2]
    exact drop_append_of_len _ _ 8 rfl
  rw [h1]
  exact take_append_of_len _ _ _ hsalt

/-- The nonce region of a well-formed frame. -/
lemma frame_nonce_region (salt nonce ct : Bytes) (n : Nat)
    (hsalt : salt.length = saltSize) (hnonce : nonce.length = n) :
    (((putUint64LE Version ++ salt ++ nonce ++ ct).drop 8).drop saltSize).take n
      = nonce := by
  have h1 : (putUint64LE Version ++ salt ++ nonce ++ ct).drop 8
      = salt ++ (nonce ++ ct) := by
    have h2 : putUint64LE Version ++ salt ++ nonce ++ ct
        = putUint64LE Version ++ (salt ++ (nonce ++ ct)) := by simp
    rw [h2]
    exact drop_append_of_len _ _ 8 rfl
  rw [h1, drop_append_of_len _ _ _ hsalt, take_append_of_len _ _ _ hnonce]

/-- Shared round-trip argument: a blob produced by `Encrypt` decrypts to the
original value under the same password, given that the primitives invert
each other on the relevant inputs. -/
lemma Decrypt_Encrypt_aux {α : Type} (C : Crypto α) (password salt nonce : Bytes)
    (v : α) (blob h : Bytes)
    (hsalt : salt.length = saltSize) (hnonce : nonce.length = C.nonceSize)
    (henc : Encrypt C salt nonce password v = some (blob, h))
    (hopen : ∀ pt, C.openAEAD (C.derive password salt) nonce
      (C.sealAEAD (C.derive password salt) nonce pt) = some pt)
    (hzip : ∀ b, C.gunzip (C.gzip b) = some b)
    (hgob : ∀ s, C.gobEncode v = some s → C.gobDecode s = some v) :
    Decrypt C blob password = Except.ok v := by
  obtain ⟨encoded, hg, hk, hb, hh⟩ := Encrypt_eq_some C salt nonce password v blob h henc
  subst hb
  unfold Decrypt
  rw [DecryptT_frame C password salt nonce _ hsalt hnonce hk]
  rw [hopen (C.gzip encoded)]
  simp only [hzip encoded, hgob encoded hg]

/-! Toy instantiation lemmas used by the concrete witnesses. -/

lemma toy_derive_len (p s : Bytes) : (toy.derive p s).length = 32 := by
  simp [toy]

lemma toy_keyOk (p s : Bytes) : aesKeyOk (toy.derive p s) = true :=
  aesKeyOk_of_len32 _ (toy_derive_len p s)

lemma toy_gunzip_gzip (b : Bytes) : toy.gunzip (toy.gzip b) = some b := by
  simp [toy]

lemma toyOpen_toySeal (k n pt : Bytes) : toyOpen k n (toySeal k n pt) = some pt := by
  unfold toySeal toyOpen
  have hlen : (pt ++ (List.replicate 15 0 ++ [(bsum k + bsum n + bsum pt) % 256])).length
      = pt.length + 16 := by simp
  simp only [List.append_assoc, hlen]
  rw [if_neg (by omega)]
  have h16 : pt.length + 16 - 16 = pt.length := by omega
  simp only [h16, take_append_len, drop_append_len]
  simp

lemma toyOpen_short (k n ct : Bytes) (h : ct.length < 16) : toyOpen k n ct = none := by
  unfold toyOpen
  rw [if_pos h]

/-! The claim theorems. -/

/-- C1: for every supported value `v` and every password `p`, `Decrypt`
applied to the blob returned by `Encrypt(p, v)`, with the same password `p`,
succeeds with no error and yields a value equal to `v`.  The salt and nonce
are the random bytes drawn inside `Encrypt`; supportedness of `v` and
correctness of the external primitives enter as the inversion
hypotheses. -/
theorem encrypt_decrypt_roundtrip {α : Type} (C : Crypto α)
    (password salt nonce : Bytes) (v : α) (blob h : Bytes)
    (hsalt : salt.length = saltSize) (hnonce : nonce.length = C.nonceSize)
    (henc : Encrypt C salt nonce password v = some (blob, h))
    (hopen : ∀ pt, C.openAEAD (C.derive password salt) nonce
      (C.sealAEAD (C.derive password salt) nonce pt) = some pt)
    (hzip : ∀ b, C.gunzip (C.gzip b) = some b)
    (hgob : ∀ s, C.gobEncode v = some s → C.gobDecode s = some v) :
    Decrypt C blob password = Except.ok v :=
  Decrypt_Encrypt_aux C password salt nonce v blob h hsalt hnonce henc hopen hzip hgob

theorem encrypt_decrypt_roundtrip_witness :
    Decrypt toy toyPair.1 pw1 = Except.ok 7 :=
  encrypt_decrypt_roundtrip toy pw1 zeroSalt zeroNonce 7 toyPair.1 toyPair.2
    rfl rfl rfl (fun pt => toyOpen_toySeal _ _ pt) toy_gunzip_gzip
    (fun s hs => by
      simp only [toy] at hs ⊢
      cases hs
      rfl)

/-- C2: for every password and value on which `Encrypt` succeeds, the blob
is exactly the 8-byte little-endian version 1, the 64-byte salt, the nonce
of the AEAD nonce size, and the AEAD-sealed payload, in that order and
nothing else. -/
theorem encrypt_blob_layout {α : Type} (C : Crypto α)
    (password salt nonce : Bytes) (v : α) (blob h : Bytes)
    (hsalt : salt.length = saltSize) (hnonce : nonce.length = C.nonceSize)
    (henc : Encrypt C salt nonce password v = some (blob, h)) :
    ∃ encoded, C.gobEncode v = some encoded ∧
      blob = putUint64LE Version ++ salt ++ nonce ++
        C.sealAEAD (C.derive password salt) nonce (C.gzip encoded) := by
  obtain ⟨encoded, hg, _, hb, _⟩ :=
    Encrypt_eq_some C salt nonce password v blob h henc
  exact ⟨encoded, hg, hb⟩

theorem encrypt_blob_layout_witness :
    ∃ encoded, toy.gobEncode 7 = some encoded ∧
      toyPair.1 = putUint64LE Version ++ zeroSalt ++ zeroNonce ++
        toy.sealAEAD (toy.derive pw1 zeroSalt) zeroNonce (toy.gzip encoded) :=
  encrypt_blob_layout toy pw1 zeroSalt zeroNonce 7 toyPair.1 toyPair.2 rfl rfl rfl

/-- C3: for every input on which `Encrypt` succeeds, the returned hash is
the SHA-512 digest of exactly the blob bytes it returns; the digest is an
auxiliary output, not embedded in the frame. -/
theorem encrypt_hash_is_digest_of_blob {α : Type} (C : Crypto α)
    (password salt nonce : Bytes) (v : α) (blob h : Bytes)
    (henc : Encrypt C salt nonce password v = some (blob, h)) :
    h = C.sha512 blob := by
  obtain ⟨_, _, _, _, hh⟩ := Encrypt_eq_some C salt nonce password v blob h henc
  exact hh

theorem encrypt_hash_is_digest_of_blob_witness :
    toyPair.2 = toy.sha512 toyPair.1 :=
  encrypt_hash_is_digest_of_blob toy pw1 zeroSalt zeroNonce 7 toyPair.1 toyPair.2 rfl

/-- C4: truncation boundaries of `Decrypt`.  Lengths 0 to 7 give the
missing-version error; length at least 8 with a first word other than the
encoding of 1 gives the invalid-version error; valid version with total
length 8 to 71 gives the missing-salt error; valid version with total
length 72 to 72+N-1 gives the missing-nonce error.  The hypothesis records
that the key derivation returns 32 bytes, as argon2 does with the fixed
parameters of `derive`. -/
theorem decrypt_truncation_boundaries {α : Type} (C : Crypto α)
    (data password : Bytes)
    (hkl : ∀ s, (C.derive password s).length = 32) :
    (data.length < 8 → Decrypt C data password = .error .noVersion) ∧
    (8 ≤ data.length → data.take 8 ≠ putUint64LE Version →
      Decrypt C data password = .error .versionInvalid) ∧
    (8 ≤ data.length → data.length < 8 + saltSize →
      data.take 8 = putUint64LE Version →
      Decrypt C data password = .error .noSalt) ∧
    (8 + saltSize ≤ data.length → data.length < 8 + saltSize + C.nonceSize →
      data.take 8 = putUint64LE Version →
      Decrypt C data password = .error .noNonce) := by
  refine ⟨?_, ?_, ?_, ?_⟩
  · intro h1
    unfold Decrypt DecryptT
    simp [h1]
  · intro h1 h2
    have hb8 : 8 ≤ (data.take 8).length := by
      simp [List.length_take]; omega
    have hne : ¬ leUint64 (data.take 8) = 1 := by
      rw [leUint64_eq_one_iff _ hb8, List.take_take]
      simpa using h2
    have hc1 : ¬ data.length < 8 := by omega
    unfold Decrypt DecryptT
    simp [hc1, hne]
  · intro h1 h2 hv
    have hb8 : 8 ≤ (data.take 8).length := by
      simp [List.length_take]; omega
    have hle : leUint64 (data.take 8) = 1 := by
      rw [leUint64_eq_one_iff _ hb8, List.take_take]
      simpa using hv
    have hc1 : ¬ data.length < 8 := by omega
    have hc2 : data.length - 8 < saltSize := by omega
    unfold Decrypt DecryptT
    simp [hc1, hle, hc2]
  · intro h1 h2 hv
    have hb8 : 8 ≤ (data.take 8).length := by
      simp [List.length_take]; omega
    have hle : leUint64 (data.take 8) = 1 := by
      rw [leUint64_eq_one_iff _ hb8, List.take_take]
      simpa using hv
    have hc1 : ¬ data.length < 8 := by omega
    have hc2 : ¬ data.length - 8 < saltSize := by omega
    have hkeyok : aesKeyOk (C.derive password ((data.drop 8).take saltSize)) = true :=
      aesKeyOk_of_len32 _ (hkl _)
    have hc3 : data.length - (8 + saltSize) < C.nonceSize := by omega
    unfold Decrypt DecryptT
    simp [hc1, hle, hc2, hkeyok, hc3]

theorem decrypt_truncation_boundaries_witness :
    Decrypt toy c5data pw1 = .error .noNonce :=
  (decrypt_truncation_boundaries toy c5data pw1
      (fun s => toy_derive_len pw1 s)).2.2.2
    (by decide) (by decide) (by decide)

/-- C5, corrected: the version, invalid-version and salt length checks fail
before any cryptographic operation, and the missing-nonce check fails
before the AEAD open; but contrary to the claim, when the nonce check fails
the key derivation and cipher construction have already been performed,
because the nonce size is read from the constructed GCM. -/
theorem decrypt_framing_errors_order {α : Type} (C : Crypto α)
    (data password : Bytes) :
    ((Decrypt C data password = .error .noVersion ∨
      Decrypt C data password = .error .versionInvalid ∨
      Decrypt C data password = .error .noSalt) →
        (DecryptT C data password).1 = []) ∧
    (Decrypt C data password = .error .noNonce →
      (DecryptT C data password).1 =
          [CryptoOp.deriveKey, CryptoOp.newCipher, CryptoOp.newGCM] ∧
        CryptoOp.aeadOpen ∉ (DecryptT C data password).1) := by
  unfold Decrypt DecryptT
  constructor
  · rintro (h | h | h)
    · repeat' split at h
      all_goals repeat' split
      all_goals first | (simp_all; done) | (exfalso; omega) | omega
    · repeat' split at h
      all_goals repeat' split
      all_goals first | (simp_all; done) | (exfalso; omega) | omega
    · repeat' split at h
      all_goals repeat' split
      all_goals first | (simp_all; done) | (exfalso; omega) | omega
  · intro h
    repeat' split at h
    all_goals repeat' split
    all_goals first | (simp_all; done) | (exfalso; omega) | omega

theorem decrypt_framing_errors_order_witness :
    (DecryptT toy c5data pw1).1 =
        [CryptoOp.deriveKey, CryptoOp.newCipher, CryptoOp.newGCM] ∧
      CryptoOp.aeadOpen ∉ (DecryptT toy c5data pw1).1 :=
  (decrypt_framing_errors_order toy c5data pw1).2 rfl

/-- C5 counterexample: on a 72-byte blob with valid version and salt the
code returns the missing-nonce framing error, yet the trace of performed
cryptographic operations is not empty: key derivation and cipher
construction happened before the check. -/
theorem decrypt_nonce_check_after_kdf_cex :
    Decrypt toy c5data pw1 = .error .noNonce ∧
      (DecryptT toy c5data pw1).1 ≠ [] := by
  refine ⟨rfl, by decide⟩

/-- C6: `Decrypt` fails closed.  Whenever it returns an error, the content
of the output reference is the value the caller passed in, untouched; and
when it reports success the reference holds exactly the decrypted value. -/
theorem decrypt_fail_closed {α : Type} (C : Crypto α)
    (data password : Bytes) (d : α) :
    (∀ e, (DecryptRef C data password d).1 = .error e →
      (DecryptRef C data password d).2 = d) ∧
    ((DecryptRef C data password d).1 = .ok () →
      Decrypt C data password = .ok ((DecryptRef C data password d).2)) := by
  constructor
  · intro e h
    unfold DecryptRef at h ⊢
    repeat' split at h
    all_goals repeat' split
    all_goals first | rfl | (simp_all; done) | (exfalso; omega) | omega
  · intro h
    unfold DecryptRef at h
    unfold Decrypt DecryptT DecryptRef
    repeat' split at h
    all_goals repeat' split
    all_goals first | rfl | (simp_all; done) | (exfalso; omega) | omega

theorem decrypt_fail_closed_witness :
    (DecryptRef toy c5data pw1 0).2 = 0 :=
  (decrypt_fail_closed toy c5data pw1 0).1 EncError.noNonce rfl

/-- C7: decrypting a blob produced under password `p` with a different
password `p2` fails with the authentication error from the AEAD open and
never yields a value; the hypothesis `hfail` is the AEAD authentication
property for the mismatched derived key. -/
theorem decrypt_wrong_password_auth {α : Type} (C : Crypto α)
    (p p2 salt nonce : Bytes) (v : α) (blob h : Bytes)
    (hpw : p2 ≠ p)
    (hsalt : salt.length = saltSize) (hnonce : nonce.length = C.nonceSize)
    (henc : Encrypt C salt nonce p v = some (blob, h))
    (hkey2 : aesKeyOk (C.derive p2 salt) = true)
    (hfail : C.openAEAD (C.derive p2 salt) nonce
      (blob.drop (8 + saltSize + C.nonceSize)) = none) :
    Decrypt C blob p2 = .error .auth := by
  obtain ⟨encoded, hg, hk, hb, hh⟩ := Encrypt_eq_some C salt nonce p v blob h henc
  subst hb
  rw [frame_drop_ct salt nonce _ C.nonceSize hsalt hnonce] at hfail
  unfold Decrypt
  rw [DecryptT_frame C p2 salt nonce _ hsalt hnonce hkey2]
  rw [hfail]

theorem decrypt_wrong_password_auth_witness :
    Decrypt toy toyPair.1 pw2 = .error .auth :=
  decrypt_wrong_password_auth toy pw1 pw2 zeroSalt zeroNonce 7 toyPair.1 toyPair.2
    (by decide) rfl rfl rfl (toy_keyOk pw2 zeroSalt) rfl

/-- C8: on a blob with valid version, full salt and full nonce whose
ciphertext region is shorter than the AEAD tag, `Decrypt` returns the error
of the AEAD open call, not a distinct framing error, and no plaintext.  The
hypothesis `hopenshort` is the AEAD property that opening fails on inputs
shorter than the tag. -/
theorem decrypt_short_ciphertext_auth {α : Type} (C : Crypto α)
    (data password : Bytes)
    (hver : data.take 8 = putUint64LE Version)
    (hlen : 8 + saltSize + C.nonceSize ≤ data.length)
    (hshort : data.length < 8 + saltSize + C.nonceSize + C.tagSize)
    (hkey : aesKeyOk (C.derive password ((data.drop 8).take saltSize)) = true)
    (hopenshort : ∀ k n ct, ct.length < C.tagSize → C.openAEAD k n ct = none) :
    Decrypt C data password = .error .auth := by
  have hb8 : 8 ≤ (data.take 8).length := by
    simp [List.length_take]; omega
  have hle : leUint64 (data.take 8) = 1 := by
    rw [leUint64_eq_one_iff _ hb8, List.take_take]
    simpa using hver
  have hc1 : ¬ data.length < 8 := by omega
  have hc2 : ¬ data.length - 8 < saltSize := by omega
  have hc3 : ¬ data.length - (8 + saltSize) < C.nonceSize := by omega
  have hnone : C.openAEAD (C.derive password ((data.drop 8).take saltSize))
      ((data.drop (8 + saltSize)).take C.nonceSize)
      (data.drop (8 + saltSize + C.nonceSize)) = none := by
    apply hopenshort
    rw [List.length_drop]
    omega
  unfold Decrypt DecryptT
  simp [hc1, hle, hc2, hkey, hc3, hnone]

theorem decrypt_short_ciphertext_auth_witness :
    Decrypt toy c8data pw1 = .error .auth :=
  decrypt_short_ciphertext_auth toy c8data pw1 (by decide) (by decide) (by decide)
    (toy_keyOk pw1 _) (fun k n ct hct => toyOpen_short k n ct hct)

/-- C9, corrected: two `Encrypt` calls on the same password and value with
distinct fresh salts and distinct fresh nonces produce blobs whose salt and
nonce regions differ, hence different blobs, and both blobs decrypt back to
the original value under that password.  The ciphertext regions differ with
overwhelming probability for the real cipher but not unconditionally, so
that part of the claim is dropped. -/
theorem encrypt_randomized_blobs_distinct {α : Type} (C : Crypto α)
    (password : Bytes) (v : α)
    (salt1 nonce1 salt2 nonce2 blob1 h1 blob2 h2 : Bytes)
    (hs1 : salt1.length = saltSize) (hs2 : salt2.length = saltSize)
    (hn1 : nonce1.length = C.nonceSize) (hn2 : nonce2.length = C.nonceSize)
    (hsne : salt1 ≠ salt2) (hnne : nonce1 ≠ nonce2)
    (he1 : Encrypt C salt1 nonce1 password v = some (blob1, h1))
    (he2 : Encrypt C salt2 nonce2 password v = some (blob2, h2))
    (hopen1 : ∀ pt, C.openAEAD (C.derive password salt1) nonce1
      (C.sealAEAD (C.derive password salt1) nonce1 pt) = some pt)
    (hopen2 : ∀ pt, C.openAEAD (C.derive password salt2) nonce2
      (C.sealAEAD (C.derive password salt2) nonce2 pt) = some pt)
    (hzip : ∀ b, C.gunzip (C.gzip b) = some b)
    (hgob : ∀ s, C.gobEncode v = some s → C.gobDecode s = some v) :
    (blob1.drop 8).take saltSize ≠ (blob2.drop 8).take saltSize ∧
    ((blob1.drop 8).drop saltSize).take C.nonceSize ≠
      ((blob2.drop 8).drop saltSize).take C.nonceSize ∧
    blob1 ≠ blob2 ∧
    Decrypt C blob1 password = Except.ok v ∧
    Decrypt C blob2 password = Except.ok v := by
  have hr1 : Decrypt C blob1 password = Except.ok v :=
    Decrypt_Encrypt_aux C password salt1 nonce1 v blob1 h1 hs1 hn1 he1 hopen1 hzip hgob
  have hr2 : Decrypt C blob2 password = Except.ok v :=
    Decrypt_Encrypt_aux C password salt2 nonce2 v blob2 h2 hs2 hn2 he2 hopen2 hzip hgob
  obtain ⟨e1, hg1, hk1, hb1, hh1⟩ := Encrypt_eq_some C salt1 nonce1 password v blob1 h1 he1
  obtain ⟨e2, hg2, hk2, hb2, hh2⟩ := Encrypt_eq_some C salt2 nonce2 password v blob2 h2 he2
  subst hb1
  subst hb2
  have hsr1 := frame_salt_region salt1 nonce1
    (C.sealAEAD (C.derive password salt1) nonce1 (C.gzip e1)) hs1
  have hsr2 := frame_salt_region salt2 nonce2
    (C.sealAEAD (C.derive password salt2) nonce2 (C.gzip e2)) hs2
  refine ⟨?_, ?_, ?_, hr1, hr2⟩
  · rw [hsr1, hsr2]
    exact hsne
  · rw [frame_nonce_region salt1 nonce1 _ C.nonceSize hs1 hn1,
      frame_nonce_region salt2 nonce2 _ C.nonceSize hs2 hn2]
    exact hnne
  · intro heq
    apply hsne
    have hregions := congrArg (fun b : Bytes => (b.drop 8).take saltSize) heq
    dsimp only [] at hregions
    rw [hsr1, hsr2] at hregions
    exact hregions

theorem encrypt_randomized_blobs_distinct_witness :
    (toyPair.1.drop 8).take saltSize ≠ (toyPairAlt.1.drop 8).take saltSize ∧
    ((toyPair.1.drop 8).drop saltSize).take toy.nonceSize ≠
      ((toyPairAlt.1.drop 8).drop saltSize).take toy.nonceSize ∧
    toyPair.1 ≠ toyPairAlt.1 ∧
    Decrypt toy toyPair.1 pw1 = Except.ok 7 ∧
    Decrypt toy toyPairAlt.1 pw1 = Except.ok 7 :=
  encrypt_randomized_blobs_distinct toy pw1 7 zeroSalt zeroNonce altSalt altNonce
    toyPair.1 toyPair.2 toyPairAlt.1 toyPairAlt.2 rfl rfl rfl rfl
    (by decide) (by decide) rfl rfl
    (fun pt => toyOpen_toySeal _ _ pt) (fun pt => toyOpen_toySeal _ _ pt)
    toy_gunzip_gzip
    (fun s hs => by
      simp only [toy] at hs ⊢
      cases hs
      rfl)

/-- C9 counterexample: for an AEAD whose output coincides on these inputs,
two calls with distinct salts and distinct nonces produce blobs whose
ciphertext regions are equal, so the claim that the ciphertext regions
always differ fails. -/
theorem encrypt_ciphertext_region_coincide_cex :
    cexSalt1 ≠ cexSalt2 ∧ cexNonce1 ≠ cexNonce2 ∧
    Encrypt toy cexSalt1 cexNonce1 pw1 7 = some cexPair1 ∧
    Encrypt toy cexSalt2 cexNonce2 pw1 7 = some cexPair2 ∧
    cexPair1.1.drop (8 + saltSize + toy.nonceSize) =
      cexPair2.1.drop (8 + saltSize + toy.nonceSize) := by
  refine ⟨by decide, by decide, rfl, rfl, by decide⟩

end Enc
